import Mathlib

/-!
Shallow embedding of the AllocatorLab sources: the pool allocator
named my_allocator, from src/my_allocator.h, and the singly linked
container named my_container, from src/unnamed/part_000.

Raw pointers are modelled as natural-number addresses.  The C++
operator new is modelled as handing out fresh, non-overlapping address
ranges from a counter.  Object liveness -- which addresses currently
hold a constructed object, maintained by construct and destroy -- is
tracked in a ghost list of live addresses; the C++ Chunk struct itself
carries no such information, and none of the code-mirroring functions
read it.
-/

namespace my_allocator

/-- One memory chunk, mirroring the private struct Chunk of
my_allocator: a pointer named data (here the base address of the
chunk's raw memory), a total size and a used count, both in elements. -/
structure Chunk where
  data : Nat
  size : Nat
  used : Nat
deriving DecidableEq

/-- The state of one my_allocator instance: the vector of chunks
(field chunks_ in the source) plus the model's fresh-address counter
and the ghost set of live (constructed) addresses. -/
structure AllocState where
  chunks : List Chunk
  nextAddr : Nat
  live : List Nat
deriving DecidableEq

/-- A freshly constructed allocator: no chunks. -/
def initState : AllocState := ⟨[], 0, []⟩

/-- The scan loop of allocate: walk chunks_ in creation order and take
the first chunk with chunk.size - chunk.used >= n, returning the
updated chunk list and the address chunk.data + chunk.used.  (size and
used are size_type; under the used <= size invariant the unsigned
subtraction never wraps, so Nat subtraction is exact.) -/
def allocLoop (n : Nat) : List Chunk → Option (List Chunk × Nat)
  | [] => none
  | c :: cs =>
    if n ≤ c.size - c.used then
      some ({ c with used := c.used + n } :: cs, c.data + c.used)
    else
      (allocLoop n cs).map (fun pr => (c :: pr.1, pr.2))

/-- my_allocator::allocate.  Returns the address handed out (none for
the nullptr returned when n = 0) and the successor state.  The
no-fit branch mirrors: new_size = max(ChunkSize, n); operator new
(modelled as the fresh range starting at nextAddr);
chunks_.push_back(new chunk with used 0) followed immediately by
setting back().used = n; return the new chunk's base. -/
def allocate (CS : Nat) (s : AllocState) (n : Nat) : Option Nat × AllocState :=
  if n = 0 then (none, s)
  else
    match allocLoop n s.chunks with
    | some (cs, r) => (some r, { s with chunks := cs })
    | none =>
      (some s.nextAddr,
       { s with chunks := s.chunks ++ [⟨s.nextAddr, max CS n, n⟩],
                nextAddr := s.nextAddr + max CS n })

/-- my_allocator::deallocate: the body only casts p and n to void. -/
def deallocate (s : AllocState) (_p _n : Nat) : AllocState := s

/-- my_allocator::construct, abstracted to the ghost liveness set: a
placement-new at p makes the object at p live. -/
def construct (s : AllocState) (p : Nat) : AllocState :=
  { s with live := s.live.insert p }

/-- my_allocator::destroy: the destructor call ends the lifetime of
the object at p. -/
def destroy (s : AllocState) (p : Nat) : AllocState :=
  { s with live := s.live.erase p }

/-- Transcribed from the spec wording for claim C1: scan existing
chunks in creation order and give the index of the first chunk whose
capacity minus used is at least n. -/
def firstFitIdx (n : Nat) : List Chunk → Option Nat
  | [] => none
  | c :: cs => if n ≤ c.size - c.used then some 0 else (firstFitIdx n cs).map (· + 1)

/-- Transcribed from the spec wording for claim C1 (first-fit, single
pass): if some existing chunk fits, the first one is selected, the
returned address is its base plus its used count and its used count
grows by exactly n; otherwise a chunk of capacity max(default, n) is
appended with used count n and its base is returned; n = 0 returns
null with no side effect. -/
def allocateSpec (CS : Nat) (s : AllocState) (n : Nat) : Option Nat × AllocState :=
  if n = 0 then (none, s)
  else
    match firstFitIdx n s.chunks with
    | some i =>
      match s.chunks[i]? with
      | some c =>
        (some (c.data + c.used),
         { s with chunks := s.chunks.set i { c with used := c.used + n } })
      | none => (none, s)
    | none =>
      (some s.nextAddr,
       { s with chunks := s.chunks ++ [⟨s.nextAddr, max CS n, n⟩],
                nextAddr := s.nextAddr + max CS n })

theorem firstFitIdx_getElem (n : Nat) :
    ∀ cs : List Chunk, ∀ i, firstFitIdx n cs = some i →
      ∃ c, cs[i]? = some c ∧ n ≤ c.size - c.used := by
  intro cs
  induction cs with
  | nil => intro i h; simp [firstFitIdx] at h
  | cons c cs ih =>
    intro i h
    by_cases hf : n ≤ c.size - c.used
    · simp [firstFitIdx, hf] at h
      subst h
      exact ⟨c, by simp, hf⟩
    · simp [firstFitIdx, hf] at h
      obtain ⟨j, hj, rfl⟩ := h
      obtain ⟨d, hd, hfit⟩ := ih j hj
      exact ⟨d, by simpa using hd, hfit⟩

theorem allocLoop_eq (n : Nat) :
    ∀ cs : List Chunk,
      allocLoop n cs =
        (firstFitIdx n cs).bind fun i =>
          (cs[i]?).map fun c =>
            (cs.set i { c with used := c.used + n }, c.data + c.used) := by
  intro cs
  induction cs with
  | nil => rfl
  | cons c cs ih =>
    by_cases hf : n ≤ c.size - c.used
    · simp [allocLoop, firstFitIdx, hf]
    · simp only [allocLoop, firstFitIdx, if_neg hf, ih]
      cases hix : firstFitIdx n cs with
      | none => simp
      | some i =>
        simp only [Option.map_some, Option.bind_some, Option.some_bind]
        cases hg : cs[i]? with
        | none => simp [hg]
        | some d => simp [hg, List.set]

theorem allocate_eq_spec (CS : Nat) (s : AllocState) (n : Nat) :
    allocate CS s n = allocateSpec CS s n := by
  by_cases hn : n = 0
  · simp [allocate, allocateSpec, hn]
  · unfold allocate allocateSpec
    rw [allocLoop_eq]
    cases hf : firstFitIdx n s.chunks with
    | none => simp [hn]
    | some i =>
      obtain ⟨c, hc, _⟩ := firstFitIdx_getElem n s.chunks i hf
      simp [hn, hc]

/-- Iterate allocate over a list of request sizes. -/
def runAllocs (CS : Nat) : AllocState → List Nat → AllocState
  | s, [] => s
  | s, n :: ns => runAllocs CS (allocate CS s n).2 ns

/-- An allocator object: its address (the identity of *this) together
with its state.  Mirrors the fact that operator== compares this
against the address of the other instance. -/
structure AllocRef where
  addr : Nat
  state : AllocState

/-- my_allocator::operator==: this == addressOf other. -/
def refEq (a b : AllocRef) : Bool := a.addr == b.addr

/-- my_allocator::operator!=: the negation of operator==. -/
def refNe (a b : AllocRef) : Bool := !(refEq a b)

end my_allocator

namespace my_allocator

/-- p lies in the handed-out region of some chunk, that is in
the region from data to data + used of a chunk of s. -/
def inUsedB (s : AllocState) (p : Nat) : Bool :=
  s.chunks.any fun c => decide (c.data ≤ p) && decide (p < c.data + c.used)

/-- Allocator states reachable by any sequence of allocator and client
operations.  A client may call construct only at addresses inside
storage the allocator has handed out (regions below each chunk's used
mark), which is how both the linked container and the standard map use
the allocator. -/
inductive Reach (CS : Nat) : AllocState → Prop
  | init : Reach CS initState
  | alloc (s : AllocState) (n : Nat) : Reach CS s → Reach CS (allocate CS s n).2
  | dealloc (s : AllocState) (p n : Nat) : Reach CS s → Reach CS (deallocate s p n)
  | constr (s : AllocState) (p : Nat) : Reach CS s → inUsedB s p = true →
      Reach CS (construct s p)
  | destr (s : AllocState) (p : Nat) : Reach CS s → Reach CS (destroy s p)

/-- The chunks occupy consecutive address ranges: starting at address
a, each chunk's base equals the running offset, and the ranges end
exactly at b (the model's fresh-address counter). -/
def Packed : Nat → List Chunk → Nat → Prop
  | a, [], b => a = b
  | a, c :: cs, b => c.data = a ∧ Packed (a + c.size) cs b

/-- Strengthened allocator invariant: the chunk ranges are packed
below the fresh-address counter, every chunk satisfies used <= size,
and every live (constructed) address lies in the handed-out region of
some chunk. -/
def AllocInv (s : AllocState) : Prop :=
  Packed 0 s.chunks s.nextAddr ∧
  (∀ c ∈ s.chunks, c.used ≤ c.size) ∧
  (∀ p ∈ s.live, ∃ (i : Nat) (c : Chunk),
    s.chunks[i]? = some c ∧ c.data ≤ p ∧ p < c.data + c.used)

theorem packed_lb :
    ∀ (cs : List Chunk) (a b : Nat), Packed a cs b →
      ∀ (j : Nat) (d : Chunk), cs[j]? = some d → a ≤ d.data := by
  intro cs
  induction cs with
  | nil => intro a b _ j d hd; simp at hd
  | cons e cs ih =>
    intro a b hp j d hd
    obtain ⟨hea, hrest⟩ := hp
    cases j with
    | zero =>
      simp only [List.getElem?_cons_zero, Option.some.injEq] at hd
      subst hd
      omega
    | succ j =>
      simp only [List.getElem?_cons_succ] at hd
      have := ih (a + e.size) b hrest j d hd
      omega

theorem packed_disjoint :
    ∀ (cs : List Chunk) (a b : Nat), Packed a cs b →
      ∀ (i j p : Nat) (c d : Chunk), cs[i]? = some c → cs[j]? = some d →
        c.data ≤ p → p < c.data + c.size → d.data ≤ p → p < d.data + d.size → i = j := by
  intro cs
  induction cs with
  | nil => intro a b _ i j p c d hc; simp at hc
  | cons e cs ih =>
    intro a b hp i j p c d hc hd hc1 hc2 hd1 hd2
    obtain ⟨hea, hrest⟩ := hp
    cases i with
    | zero =>
      cases j with
      | zero => rfl
      | succ j =>
        simp only [List.getElem?_cons_zero, Option.some.injEq] at hc
        simp only [List.getElem?_cons_succ] at hd
        have hlb := packed_lb cs (a + e.size) b hrest j d hd
        subst hc
        omega
    | succ i =>
      cases j with
      | zero =>
        simp only [List.getElem?_cons_zero, Option.some.injEq] at hd
        simp only [List.getElem?_cons_succ] at hc
        have hlb := packed_lb cs (a + e.size) b hrest i c hc
        subst hd
        omega
      | succ j =>
        simp only [List.getElem?_cons_succ] at hc hd
        exact congrArg Nat.succ (ih (a + e.size) b hrest i j p c d hc hd hc1 hc2 hd1 hd2)

theorem packed_set_used :
    ∀ (cs : List Chunk) (a b i u : Nat) (c : Chunk), Packed a cs b → cs[i]? = some c →
      Packed a (cs.set i { c with used := u }) b := by
  intro cs
  induction cs with
  | nil => intro a b i u c _ hc; simp at hc
  | cons e cs ih =>
    intro a b i u c hp hc
    obtain ⟨hea, hrest⟩ := hp
    cases i with
    | zero =>
      simp only [List.getElem?_cons_zero, Option.some.injEq] at hc
      subst hc
      exact ⟨hea, hrest⟩
    | succ i =>
      simp only [List.getElem?_cons_succ] at hc
      exact ⟨hea, ih (a + e.size) b i u c hrest hc⟩

theorem packed_append (cs : List Chunk) :
    ∀ (a b k u : Nat), Packed a cs b → Packed a (cs ++ [⟨b, k, u⟩]) (b + k) := by
  induction cs with
  | nil =>
    intro a b k u hp
    have hab : a = b := hp
    subst hab
    exact ⟨rfl, rfl⟩
  | cons e cs ih =>
    intro a b k u hp
    exact ⟨hp.1, ih (a + e.size) b k u hp.2⟩

theorem allocate_inv (CS : Nat) (s : AllocState) (n : Nat) (h : AllocInv s) :
    AllocInv (allocate CS s n).2 := by
  rw [allocate_eq_spec]
  obtain ⟨hpk, hus, hlv⟩ := h
  by_cases hn : n = 0
  · simpa [allocateSpec, hn] using ⟨hpk, hus, hlv⟩
  · unfold allocateSpec
    cases hf : firstFitIdx n s.chunks with
    | some i =>
      obtain ⟨c, hc, hfit⟩ := firstFitIdx_getElem n s.chunks i hf
      simp only [hn, if_false, hf, hc]
      refine ⟨?_, ?_, ?_⟩
      · exact packed_set_used s.chunks 0 s.nextAddr i (c.used + n) c hpk hc
      · intro x hx
        rcases List.mem_or_eq_of_mem_set hx with hx | rfl
        · exact hus x hx
        · have : n ≤ c.size - c.used := hfit
          simp only
          omega
      · intro p hp
        obtain ⟨j, d, hd, hd1, hd2⟩ := hlv p hp
        by_cases hij : i = j
        · subst hij
          rw [hc] at hd
          injection hd with hd
          subst hd
          have hlen : i < s.chunks.length := (List.getElem?_eq_some_iff.1 hc).1
          refine ⟨i, { c with used := c.used + n }, ?_, hd1, ?_⟩
          · simp [List.getElem?_set_self hlen]
          · simp only
            omega
        · exact ⟨j, d, by rw [List.getElem?_set_ne hij]; exact hd, hd1, hd2⟩
    | none =>
      simp only [hn, if_false, hf]
      refine ⟨?_, ?_, ?_⟩
      · exact packed_append s.chunks 0 s.nextAddr (max CS n) n hpk
      · intro x hx
        rcases List.mem_append.1 hx with hx | hx
        · exact hus x hx
        · simp only [List.mem_singleton] at hx
          subst hx
          exact Nat.le_max_right CS n
      · intro p hp
        obtain ⟨j, d, hd, hd1, hd2⟩ := hlv p hp
        have hlen : j < s.chunks.length := (List.getElem?_eq_some_iff.1 hd).1
        exact ⟨j, d, by rw [List.getElem?_append_left hlen]; exact hd, hd1, hd2⟩

theorem inUsedB_spec (s : AllocState) (p : Nat) (h : inUsedB s p = true) :
    ∃ (i : Nat) (c : Chunk), s.chunks[i]? = some c ∧ c.data ≤ p ∧ p < c.data + c.used := by
  unfold inUsedB at h
  rw [List.any_eq_true] at h
  obtain ⟨c, hc, hpc⟩ := h
  obtain ⟨i, hi⟩ := List.mem_iff_getElem?.1 hc
  simp only [Bool.and_eq_true, decide_eq_true_eq] at hpc
  exact ⟨i, c, hi, hpc.1, hpc.2⟩

theorem reach_inv (CS : Nat) (s : AllocState) (h : Reach CS s) : AllocInv s := by
  induction h with
  | init => refine ⟨rfl, ?_, ?_⟩ <;> intro x hx <;> simp [initState] at hx
  | alloc s n _ ih => exact allocate_inv CS s n ih
  | dealloc s p n _ ih => exact ih
  | constr s p _ hg ih =>
    obtain ⟨hpk, hus, hlv⟩ := ih
    refine ⟨hpk, hus, ?_⟩
    intro q hq
    rcases List.mem_insert_iff.1 hq with rfl | hq
    · exact inUsedB_spec s q hg
    · exact hlv q hq
  | destr s p _ ih =>
    obtain ⟨hpk, hus, hlv⟩ := ih
    exact ⟨hpk, hus, fun q hq => hlv q (List.mem_of_mem_erase hq)⟩

/-- The invariant exactly as claim C6 words it, as a decidable check:
every chunk satisfies used <= size, every slot of the region from data
to data + used holds a live constructed element, and every slot of the
region from data + used to data + size holds no live element
(uninitialized but reserved). -/
def claimedChunkInvB (s : AllocState) : Bool :=
  s.chunks.all fun c =>
    decide (c.used ≤ c.size) &&
    ((List.range c.used).all fun off => s.live.contains (c.data + off)) &&
    ((List.range c.size).all fun off => decide (off < c.used) || !(s.live.contains (c.data + off)))

/-- The amended invariant: every chunk satisfies used <= size, and the
reserved slots from data + used to data + size never hold a live
element; but the slots below used need not hold live elements. -/
def amendedInvB (s : AllocState) : Bool :=
  s.chunks.all fun c =>
    decide (c.used ≤ c.size) &&
    ((List.range c.size).all fun off => decide (off < c.used) || !(s.live.contains (c.data + off)))

end my_allocator

open my_allocator in
/-- C6 counterexample: the claimed invariant fails on a reachable
state.  After one allocate(1) from the fresh state (default capacity
10), then construct and destroy at the returned address 0 -- exactly
what the container does on push_back followed by clear -- the single
chunk has used = 1, yet the slot at its base holds no live constructed
element, contradicting the claim that the region from base to
base + used always holds live, constructed elements. -/
theorem C6_counterexample :
    Reach 10 ⟨[⟨0, 10, 1⟩], 10, []⟩ ∧ claimedChunkInvB ⟨[⟨0, 10, 1⟩], 10, []⟩ = false := by
  constructor
  · have h1 : Reach 10 (allocate 10 initState 1).2 := Reach.alloc initState 1 Reach.init
    have h2 : Reach 10 (construct (allocate 10 initState 1).2 0) :=
      Reach.constr (allocate 10 initState 1).2 0 h1 (by decide)
    have h3 : Reach 10 (destroy (construct (allocate 10 initState 1).2 0) 0) :=
      Reach.destr (construct (allocate 10 initState 1).2 0) 0 h2
    have he : destroy (construct (allocate 10 initState 1).2 0) 0 =
        (⟨[⟨0, 10, 1⟩], 10, []⟩ : AllocState) := by decide
    exact he ▸ h3
  · decide

open my_allocator in
/-- C6 amended: in every state reachable by allocator and client
operations, every chunk satisfies used <= capacity, and the reserved
slots from base + used to base + capacity never hold a live element;
the slots below used, however, are only reserved-for-the-client and
need not hold live constructed elements (they are uninitialized right
after allocate and dead again after the client destroys elements,
since deallocate never lowers used). -/
theorem C6_amended_invariant (CS : Nat) (s : AllocState) (h : Reach CS s) :
    amendedInvB s = true := by
  obtain ⟨hpk, hus, hlv⟩ := reach_inv CS s h
  unfold amendedInvB
  rw [List.all_eq_true]
  intro c hc
  rw [Bool.and_eq_true, decide_eq_true_eq, List.all_eq_true]
  refine ⟨hus c hc, ?_⟩
  intro off hoff
  rw [List.mem_range] at hoff
  rw [Bool.or_eq_true, decide_eq_true_eq, Bool.not_eq_true']
  by_cases hlt : off < c.used
  · exact Or.inl hlt
  · refine Or.inr ?_
    rw [← Bool.not_eq_true, List.contains_iff_exists_mem_beq]
    rintro ⟨q, hq, hbeq⟩
    have hqe : c.data + off = q := by simpa using hbeq
    subst hqe
    obtain ⟨j, d, hd, hd1, hd2⟩ := hlv _ hq
    obtain ⟨i, hi⟩ := List.mem_iff_getElem?.1 hc
    have hij : i = j :=
      packed_disjoint s.chunks 0 s.nextAddr hpk i j (c.data + off) c d hi hd
        (Nat.le_add_right _ _) (by omega) hd1 (by have := hus d (List.getElem?_mem hd); omega)
    rw [hij, hd] at hi
    cases hi
    omega

open my_allocator in
/-- Witness for C6 amended: the amended invariant evaluated at the
freshly constructed allocator state. -/
theorem C6_amended_invariant_witness : amendedInvB initState = true :=
  C6_amended_invariant 10 initState Reach.init

open my_allocator in
/-- C1: for every allocation request, allocate scans the existing
chunks in creation order, selects the first chunk whose capacity minus
used is at least n, returns that chunk's base plus its used count and
increments its used count by exactly n; if no existing chunk fits, a
new chunk of capacity max(default_capacity, n) is appended at the end
of the chunk sequence with used count n and its base address is
returned.  Stated as: the embedded allocate coincides with
allocateSpec, the function transcribed from the spec's first-fit
wording (the two also agree at n = 0, where both return null and
leave the state untouched). -/
theorem C1_allocate_first_fit (CS : Nat) (s : AllocState) (n : Nat) :
    allocate CS s n = allocateSpec CS s n :=
  allocate_eq_spec CS s n

open my_allocator in
/-- C4: with default chunk capacity 10, eleven allocate(1) requests
starting from the freshly constructed chunk-free state produce exactly
2 chunks, the first with used count 10 and the second with used
count 1. -/
theorem C4_eleven_unit_allocations :
    (runAllocs 10 initState (List.replicate 11 1)).chunks.length = 2 ∧
    (runAllocs 10 initState (List.replicate 11 1)).chunks.map Chunk.used = [10, 1] := by
  constructor <;> rfl

open my_allocator in
/-- C5: deallocate(p, n) is a no-op for every pointer and count: it
never fails (it is a total function) and leaves the whole allocator
state -- the chunk sequence with every base, capacity and used count --
unchanged; no sub-chunk space is ever reclaimed by it. -/
theorem C5_deallocate_noop (s : AllocState) (p n : Nat) :
    deallocate s p n = s ∧ (deallocate s p n).chunks = s.chunks :=
  ⟨rfl, rfl⟩

open my_allocator in
/-- C8: allocator equality is object identity: a == b exactly when a
and b are the same object (the same address), a != b is the negation
of a == b, every allocator compares equal to itself, and two distinct
instances compare unequal even when structurally identical (witnessed
by two default-constructed allocators at distinct addresses). -/
theorem C8_identity_equality :
    (∀ a b : AllocRef, (refEq a b = true ↔ a.addr = b.addr) ∧ refNe a b = !(refEq a b)) ∧
    (∀ a : AllocRef, refEq a a = true) ∧
    refEq ⟨0, initState⟩ ⟨1, initState⟩ = false := by
  refine ⟨fun a b => ⟨?_, rfl⟩, fun a => ?_, rfl⟩
  · simp [refEq]
  · simp [refEq]

/-!
Model of the linked container my_container (src/unnamed/part_000).
Node pointers are natural-number addresses; the nodes obtained from
the configured allocator live in a per-container association-list heap
whose first binding of an address is the visible one.  The node
allocator is abstracted to a fresh-address counter plus the list of
currently allocated node addresses, which is what the rollback clause
of push_back is about.  Construction failure (an exception thrown by
the element constructor) is modelled by the Boolean argument ok.
-/

/-- A container node, mirroring my_container::Node: the element value
and the pointer to the next node (none is nullptr). -/
structure Node (α : Type) where
  data : α
  next : Option Nat
deriving DecidableEq

/-- Node storage as an association list from addresses to nodes. -/
abbrev Heap (α : Type) := List (Nat × Node α)

/-- Read the node at address a (the first binding wins). -/
def hlookup {α : Type} : Heap α → Nat → Option (Node α)
  | [], _ => none
  | (b, nd) :: t, a => if b = a then some nd else hlookup t a

/-- Write the next field of the node at address a, mirroring the
assignment through the tail pointer. -/
def setNext {α : Type} : Heap α → Nat → Option Nat → Heap α
  | [], _, _ => []
  | (b, nd) :: t, a, nx =>
    if b = a then (b, ⟨nd.data, nx⟩) :: setNext t a nx else (b, nd) :: setNext t a nx

/-- Remove the visible binding of address a (the node's lifetime has
ended and its storage was handed back). -/
def heraze {α : Type} : Heap α → Nat → Heap α
  | [], _ => []
  | (b, nd) :: t, a => if b = a then t else (b, nd) :: heraze t a

/-- The node allocator, abstracted: a fresh-address counter and the
addresses currently allocated. -/
structure NodeAlloc where
  nextAddr : Nat
  allocated : List Nat
deriving DecidableEq

/-- The container handle, mirroring the data members of my_container:
head_ and tail_ pointers, size_, and the node allocator allocator_,
together with the model's node heap. -/
structure my_container (α : Type) where
  heap : Heap α
  head : Option Nat
  tail : Option Nat
  size : Nat
  alloc : NodeAlloc
deriving DecidableEq

/-- A default-constructed container: head_ and tail_ null, size_ 0. -/
def mkEmpty (α : Type) : my_container α := ⟨[], none, none, 0, ⟨0, []⟩⟩

/-- my_container::push_back (the Boolean ok tells whether the in-place
node construction succeeds).  The code allocates one node, tries to
construct it (on failure it deallocates the just-taken storage and
re-raises), then links it: if head_ is null the node becomes head and
tail, otherwise it is linked after tail_ and becomes the new tail;
finally size_ is incremented.  The returned Boolean is true on normal
return, false when the construction failure propagates. -/
def my_container.push_back {α : Type} (c : my_container α) (v : α) (ok : Bool) :
    my_container α × Bool :=
  if ok then
    match c.head with
    | none =>
      (⟨(c.alloc.nextAddr, ⟨v, none⟩) :: c.heap,
        some c.alloc.nextAddr, some c.alloc.nextAddr, c.size + 1,
        ⟨c.alloc.nextAddr + 1, c.alloc.nextAddr :: c.alloc.allocated⟩⟩, true)
    | some _ =>
      match c.tail with
      | some t =>
        (⟨setNext ((c.alloc.nextAddr, ⟨v, none⟩) :: c.heap) t (some c.alloc.nextAddr),
          c.head, some c.alloc.nextAddr, c.size + 1,
          ⟨c.alloc.nextAddr + 1, c.alloc.nextAddr :: c.alloc.allocated⟩⟩, true)
      | none =>
        (⟨(c.alloc.nextAddr, ⟨v, none⟩) :: c.heap,
          c.head, some c.alloc.nextAddr, c.size + 1,
          ⟨c.alloc.nextAddr + 1, c.alloc.nextAddr :: c.alloc.allocated⟩⟩, true)
  else
    (⟨c.heap, c.head, c.tail, c.size,
      ⟨c.alloc.nextAddr + 1, (c.alloc.nextAddr :: c.alloc.allocated).erase c.alloc.nextAddr⟩⟩,
     false)

/-- my_container::emplace_back: its body is identical to push_back
except that the node is constructed in place from forwarded arguments
instead of a copy; at this model's level of abstraction the two
coincide. -/
def my_container.emplace_back {α : Type} (c : my_container α) (v : α) (ok : Bool) :
    my_container α × Bool :=
  c.push_back v ok

/-- The loop of my_container::clear: while head_ is non-null, save
head_->next, destroy and deallocate the head node, advance.  The fuel
only bounds the model's recursion; every step removes the visited
binding, so heap length is always enough fuel on states whose chain is
intact. -/
def clearLoop {α : Type} : Nat → Heap α → Option Nat → NodeAlloc → Heap α × NodeAlloc
  | f + 1, h, some a, al =>
    match hlookup h a with
    | some nd => clearLoop f (heraze h a) nd.next ⟨al.nextAddr, al.allocated.erase a⟩
    | none => (h, al)
  | _, h, _, al => (h, al)

/-- my_container::clear: run the destroy-and-deallocate loop from
head_, then set head_ = tail_ = null and size_ = 0. -/
def my_container.clear {α : Type} (c : my_container α) : my_container α :=
  ⟨(clearLoop c.heap.length c.heap c.head c.alloc).1, none, none, 0,
   (clearLoop c.heap.length c.heap c.head c.alloc).2⟩

/-- Forward iteration: from a node pointer, repeatedly yield the data
and follow next until null.  The fuel only bounds the model's
recursion. -/
def iterFrom {α : Type} (h : Heap α) : Option Nat → Nat → List α
  | some a, f + 1 =>
    match hlookup h a with
    | some nd => nd.data :: iterFrom h nd.next f
    | none => []
  | _, _ => []

/-- The sequence visited by iterating from begin() to end(). -/
def my_container.toList {α : Type} (c : my_container α) : List α :=
  iterFrom c.heap c.head c.size

/-- Follow the next link k times from a node pointer. -/
def stepN {α : Type} (h : Heap α) : Option Nat → Nat → Option Nat
  | cur, 0 => cur
  | some a, f + 1 =>
    stepN h (match hlookup h a with | some nd => nd.next | none => none) f
  | none, _ + 1 => none

/-- A sequence of successful push_back calls. -/
def my_container.pushAll {α : Type} (c : my_container α) (vs : List α) : my_container α :=
  vs.foldl (fun d v => (d.push_back v true).1) c

/-- my_container copy constructor: start empty with the allocator
chosen by select_on_container_copy_construction (a copy of the
source's), then push_back every element of the source in order. -/
def my_container.copyCtor {α : Type} (src : my_container α) : my_container α :=
  my_container.pushAll ⟨[], none, none, 0, src.alloc⟩ src.toList

/-- my_container move constructor: the new container takes head_,
tail_, size_ and the allocator; the source is left valid and empty. -/
def my_container.moveCtor {α : Type} (src : my_container α) :
    my_container α × my_container α :=
  (⟨src.heap, src.head, src.tail, src.size, src.alloc⟩,
   { src with head := none, tail := none, size := 0 })

/-- my_container copy assignment: self-assignment (same object) is a
no-op; otherwise clear, adopt the source's allocator, and push_back
every source element in order. -/
def my_container.copyAssign {α : Type} (dst src : my_container α) (same : Bool) :
    my_container α :=
  if same then dst
  else my_container.pushAll { dst.clear with alloc := src.alloc } src.toList

/-- my_container move assignment: when this and the source are the
same object, the guard makes it a no-op; otherwise clear the
destination, steal head_/tail_/size_/allocator (with the nodes they
reach), and leave the source empty. -/
def my_container.moveAssign {α : Type} (dst src : my_container α) (same : Bool) :
    my_container α × my_container α :=
  if same then (dst, src)
  else
    ({ dst.clear with
       heap := src.heap
       head := src.head
       tail := src.tail
       size := src.size
       alloc := src.alloc },
     { src with head := none, tail := none, size := 0 })

/-- Container states reachable through the public operations:
construction (default, with an allocator, from an initializer list --
the latter is a sequence of push_back calls), push_back and
emplace_back (succeeding or failing), clear, copy and move
construction, and copy and move assignment. -/
inductive Reachable {α : Type} : my_container α → Prop
  | nil (al : NodeAlloc) : Reachable ⟨[], none, none, 0, al⟩
  | push (c : my_container α) (v : α) (ok : Bool) :
      Reachable c → Reachable (c.push_back v ok).1
  | emplace (c : my_container α) (v : α) (ok : Bool) :
      Reachable c → Reachable (c.emplace_back v ok).1
  | clears (c : my_container α) : Reachable c → Reachable c.clear
  | copy (c : my_container α) : Reachable c → Reachable c.copyCtor
  | moveDst (c : my_container α) : Reachable c → Reachable c.moveCtor.1
  | moveSrc (c : my_container α) : Reachable c → Reachable c.moveCtor.2
  | copyAsgn (d s : my_container α) (b : Bool) :
      Reachable d → Reachable s → Reachable (d.copyAssign s b)
  | moveAsgnDst (d s : my_container α) (b : Bool) :
      Reachable d → Reachable s → Reachable (d.moveAssign s b).1
  | moveAsgnSrc (d s : my_container α) (b : Bool) :
      Reachable d → Reachable s → Reachable (d.moveAssign s b).2

/-!
Well-formedness of container states: a spine of distinct addresses
realises the chain from head to tail.  All container claims are proved
from the preservation of this representation by the public operations.
-/

/-- The spine relation: sp lists the addresses of the chain's nodes in
order and vs their values; each node's next field points to the
following spine address and the last node's next is null. -/
def LinksV {α : Type} (h : Heap α) : List Nat → List α → Prop
  | [], [] => True
  | a :: as, v :: vs => hlookup h a = some ⟨v, as.head?⟩ ∧ LinksV h as vs
  | _, _ => False

/-- A container state is well formed when some spine of distinct,
fresh-bounded addresses realises head_, tail_, size_ and the chain. -/
structure SpineWF {α : Type} (c : my_container α) (sp : List Nat) (vs : List α) : Prop where
  nodup : sp.Nodup
  bounded : ∀ a ∈ sp, a < c.alloc.nextAddr
  sizeEq : c.size = sp.length
  headEq : c.head = sp.head?
  tailEq : c.tail = sp.getLast?
  links : LinksV c.heap sp vs

theorem hlookup_cons_self {α : Type} (h : Heap α) (a : Nat) (nd : Node α) :
    hlookup ((a, nd) :: h) a = some nd := by
  simp [hlookup]

theorem hlookup_cons_ne {α : Type} (h : Heap α) (a b : Nat) (nd : Node α) (hne : b ≠ a) :
    hlookup ((b, nd) :: h) a = hlookup h a := by
  simp [hlookup, hne]

theorem hlookup_setNext {α : Type} (t : Nat) (nx : Option Nat) :
    ∀ (h : Heap α) (a : Nat),
      hlookup (setNext h t nx) a =
        if t = a then (hlookup h a).map (fun nd => ⟨nd.data, nx⟩) else hlookup h a := by
  intro h
  induction h with
  | nil => intro a; by_cases hta : t = a <;> simp [setNext, hlookup, hta]
  | cons p rest ih =>
    intro a
    obtain ⟨b, nd⟩ := p
    by_cases hbt : b = t <;> by_cases hba : b = a
    · subst hbt; subst hba
      simp [setNext, hlookup]
    · subst hbt
      simp [setNext, hlookup, hba, ih a]
    · subst hba
      have hta : ¬t = b := fun he => hbt he.symm
      simp [setNext, hlookup, hbt, hta]
    · simp [setNext, hlookup, hbt, hba, ih a]

theorem linksV_nil_right {α : Type} (h : Heap α) :
    ∀ vs : List α, LinksV h [] vs → vs = [] := by
  intro vs hl
  cases vs with
  | nil => rfl
  | cons v vs => exact hl.elim

theorem linksV_length {α : Type} (h : Heap α) :
    ∀ (sp : List Nat) (vs : List α), LinksV h sp vs → sp.length = vs.length := by
  intro sp
  induction sp with
  | nil =>
    intro vs hl
    rw [linksV_nil_right h vs hl]
    rfl
  | cons a as ih =>
    intro vs hl
    cases vs with
    | nil => exact hl.elim
    | cons v vs => simpa using ih vs hl.2

theorem linksV_iterFrom {α : Type} (h : Heap α) :
    ∀ (sp : List Nat) (vs : List α), LinksV h sp vs → iterFrom h sp.head? sp.length = vs := by
  intro sp
  induction sp with
  | nil => intro vs hl; rw [linksV_nil_right h vs hl]; rfl
  | cons a as ih =>
    intro vs hl
    cases vs with
    | nil => exact hl.elim
    | cons v vs =>
      obtain ⟨hnd, hrest⟩ := hl
      simp only [List.head?_cons, List.length_cons, iterFrom, hnd]
      exact congrArg (v :: ·) (ih vs hrest)

theorem linksV_stepN {α : Type} (h : Heap α) :
    ∀ (sp : List Nat) (vs : List α), LinksV h sp vs → sp ≠ [] →
      stepN h sp.head? (sp.length - 1) = sp.getLast? := by
  intro sp
  induction sp with
  | nil => intro vs _ hne; exact absurd rfl hne
  | cons a as ih =>
    intro vs hl _
    cases vs with
    | nil => exact hl.elim
    | cons v vs =>
      obtain ⟨hnd, hrest⟩ := hl
      cases as with
      | nil => simp [stepN]
      | cons b bs =>
        have hIH := ih vs hrest (by simp)
        simp only [List.head?_cons, List.length_cons, Nat.add_sub_cancel] at hIH ⊢
        rw [List.getLast?_cons_cons]
        have hstep : stepN h (some a) (bs.length + 1) = stepN h (some b) bs.length := by
          simp [stepN, hnd]
        rw [hstep]
        simpa using hIH

theorem linksV_last {α : Type} (h : Heap α) :
    ∀ (sp : List Nat) (vs : List α) (t : Nat), LinksV h sp vs → sp.getLast? = some t →
      ∃ v : α, hlookup h t = some ⟨v, none⟩ := by
  intro sp
  induction sp with
  | nil => intro vs t _ ht; simp at ht
  | cons a as ih =>
    intro vs t hl ht
    cases vs with
    | nil => exact hl.elim
    | cons v vs =>
      obtain ⟨hnd, hrest⟩ := hl
      cases as with
      | nil =>
        simp only [List.getLast?_singleton, Option.some.injEq] at ht
        subst ht
        exact ⟨v, by simpa using hnd⟩
      | cons b bs =>
        rw [List.getLast?_cons_cons] at ht
        exact ih vs t hrest ht

theorem linksV_snoc {α : Type} (aN : Nat) (vN : α) (h : Heap α) :
    ∀ (sp : List Nat) (vs : List α) (t : Nat), sp.Nodup → aN ∉ sp →
      LinksV h sp vs → sp.getLast? = some t →
      LinksV (setNext ((aN, ⟨vN, none⟩) :: h) t (some aN)) (sp ++ [aN]) (vs ++ [vN]) := by
  intro sp
  induction sp with
  | nil => intro vs t _ _ _ ht; simp at ht
  | cons a as ih =>
    intro vs t hnodup hfresh hl ht
    cases vs with
    | nil => exact hl.elim
    | cons v vs =>
      obtain ⟨hnd, hrest⟩ := hl
      have haN : aN ≠ a := fun he => hfresh (he ▸ List.mem_cons_self a as)
      cases as with
      | nil =>
        simp only [List.getLast?_singleton, Option.some.injEq] at ht
        subst ht
        have hvs : vs = [] := linksV_nil_right h vs hrest
        subst hvs
        refine ⟨?_, ?_, trivial⟩
        · rw [hlookup_setNext, if_pos rfl, hlookup_cons_ne h a aN ⟨vN, none⟩ haN]
          simp only [hnd]
          rfl
        · rw [hlookup_setNext, if_neg (fun he => haN he.symm), hlookup_cons_self]
          rfl
      | cons b bs =>
        rw [List.getLast?_cons_cons] at ht
        have hat : a ≠ t := by
          intro he
          have : t ∈ b :: bs := List.mem_of_mem_getLast? (by rw [ht]; rfl)
          rw [he] at hnodup
          exact (List.nodup_cons.1 hnodup).1 this
        have haN2 : aN ∉ b :: bs := fun hm => hfresh (List.mem_cons_of_mem a hm)
        refine ⟨?_, ?_⟩
        · rw [hlookup_setNext, if_neg (fun he => hat he.symm),
            hlookup_cons_ne h a aN ⟨vN, none⟩ haN]
          simpa using hnd
        · exact ih vs t (List.nodup_cons.1 hnodup).2 haN2 hrest ht

theorem push_back_ok_nil_eq {α : Type} (c : my_container α) (v : α) (hhd : c.head = none) :
    (c.push_back v true).1 =
      ⟨(c.alloc.nextAddr, ⟨v, none⟩) :: c.heap, some c.alloc.nextAddr, some c.alloc.nextAddr,
       c.size + 1, ⟨c.alloc.nextAddr + 1, c.alloc.nextAddr :: c.alloc.allocated⟩⟩ := by
  simp [my_container.push_back, hhd]

theorem push_back_ok_cons_eq {α : Type} (c : my_container α) (v : α) (x t : Nat)
    (hhd : c.head = some x) (htl : c.tail = some t) :
    (c.push_back v true).1 =
      ⟨setNext ((c.alloc.nextAddr, ⟨v, none⟩) :: c.heap) t (some c.alloc.nextAddr),
       some x, some c.alloc.nextAddr, c.size + 1,
       ⟨c.alloc.nextAddr + 1, c.alloc.nextAddr :: c.alloc.allocated⟩⟩ := by
  simp [my_container.push_back, hhd, htl]

theorem push_back_fail_eq {α : Type} (c : my_container α) (v : α) :
    (c.push_back v false).1 =
      ⟨c.heap, c.head, c.tail, c.size, ⟨c.alloc.nextAddr + 1, c.alloc.allocated⟩⟩ := by
  simp [my_container.push_back]

theorem push_back_ok_wf {α : Type} (c : my_container α) (v : α) (sp : List Nat) (vs : List α)
    (hwf : SpineWF c sp vs) :
    SpineWF (c.push_back v true).1 (sp ++ [c.alloc.nextAddr]) (vs ++ [v]) := by
  have hfresh : c.alloc.nextAddr ∉ sp := fun hm =>
    Nat.lt_irrefl _ (hwf.bounded _ hm)
  cases sp with
  | nil =>
    have hvs : vs = [] := linksV_nil_right c.heap vs hwf.links
    subst hvs
    have hhd : c.head = none := by simpa using hwf.headEq
    rw [push_back_ok_nil_eq c v hhd]
    refine ⟨by simp, by simp, by simpa using hwf.sizeEq, rfl, rfl, ?_⟩
    exact ⟨hlookup_cons_self c.heap c.alloc.nextAddr ⟨v, none⟩, trivial⟩
  | cons a0 as =>
    have hhd : c.head = some a0 := by simpa using hwf.headEq
    obtain ⟨t, ht⟩ : ∃ t, (a0 :: as).getLast? = some t := by
      cases hlast : (a0 :: as).getLast? with
      | none => simp at hlast
      | some t => exact ⟨t, rfl⟩
    have htl : c.tail = some t := by rw [hwf.tailEq, ht]
    rw [push_back_ok_cons_eq c v a0 t hhd htl]
    refine ⟨?_, ?_, ?_, ?_, ?_, ?_⟩
    · refine hwf.nodup.append (by simp) ?_
      intro a ha ha2
      simp only [List.mem_singleton] at ha2
      subst ha2
      exact hfresh ha
    · intro a ha
      rcases List.mem_append.1 ha with ha | ha
      · exact Nat.lt_succ_of_lt (hwf.bounded a ha)
      · simp only [List.mem_singleton] at ha
        subst ha
        exact Nat.lt_succ_self _
    · simpa using hwf.sizeEq
    · simp
    · exact (List.getLast?_concat (a0 :: as)).symm
    · exact linksV_snoc c.alloc.nextAddr v c.heap (a0 :: as) vs t hwf.nodup hfresh hwf.links ht

theorem spineWF_empty_shape {α : Type} (hp : Heap α) (al : NodeAlloc) :
    SpineWF ⟨hp, none, none, 0, al⟩ [] [] :=
  ⟨List.nodup_nil, by simp, rfl, rfl, rfl, trivial⟩

theorem clear_wf {α : Type} (c : my_container α) : SpineWF c.clear [] [] :=
  ⟨List.nodup_nil, by simp, rfl, rfl, rfl, trivial⟩

theorem pushAll_cons {α : Type} (c : my_container α) (w : α) (ws : List α) :
    c.pushAll (w :: ws) = ((c.push_back w true).1).pushAll ws := rfl

theorem pushAll_wf {α : Type} :
    ∀ (ws : List α) (c : my_container α) (sp : List Nat) (vs : List α),
      SpineWF c sp vs → ∃ sp', SpineWF (c.pushAll ws) sp' (vs ++ ws) := by
  intro ws
  induction ws with
  | nil =>
    intro c sp vs h
    exact ⟨sp, by simpa using h⟩
  | cons w ws ih =>
    intro c sp vs h
    rw [pushAll_cons]
    obtain ⟨sp', h2⟩ := ih (c.push_back w true).1 (sp ++ [c.alloc.nextAddr]) (vs ++ [w])
      (push_back_ok_wf c w sp vs h)
    exact ⟨sp', by simpa [List.append_assoc] using h2⟩

theorem push_back_fail_wf {α : Type} (c : my_container α) (v : α) (sp : List Nat) (vs : List α)
    (hwf : SpineWF c sp vs) : SpineWF (c.push_back v false).1 sp vs := by
  rw [push_back_fail_eq]
  exact ⟨hwf.nodup, fun a ha => Nat.lt_succ_of_lt (hwf.bounded a ha),
         hwf.sizeEq, hwf.headEq, hwf.tailEq, hwf.links⟩

theorem reachable_wf {α : Type} (c : my_container α) (h : Reachable c) :
    ∃ sp vs, SpineWF c sp vs := by
  induction h with
  | nil al => exact ⟨[], [], spineWF_empty_shape [] al⟩
  | push c v ok _ ih =>
    obtain ⟨sp, vs, hwf⟩ := ih
    cases ok with
    | true => exact ⟨sp ++ [c.alloc.nextAddr], vs ++ [v], push_back_ok_wf c v sp vs hwf⟩
    | false => exact ⟨sp, vs, push_back_fail_wf c v sp vs hwf⟩
  | emplace c v ok _ ih =>
    obtain ⟨sp, vs, hwf⟩ := ih
    cases ok with
    | true => exact ⟨sp ++ [c.alloc.nextAddr], vs ++ [v], push_back_ok_wf c v sp vs hwf⟩
    | false => exact ⟨sp, vs, push_back_fail_wf c v sp vs hwf⟩
  | clears c _ _ => exact ⟨[], [], clear_wf c⟩
  | copy c _ _ =>
    obtain ⟨sp', hwf'⟩ :=
      pushAll_wf c.toList ⟨[], none, none, 0, c.alloc⟩ [] [] (spineWF_empty_shape [] c.alloc)
    exact ⟨sp', c.toList, by simpa using hwf'⟩
  | moveDst c _ ih => exact ih
  | moveSrc c _ _ => exact ⟨[], [], spineWF_empty_shape c.heap c.alloc⟩
  | copyAsgn d s b _ _ ihd ihs =>
    cases b with
    | true => exact ihd
    | false =>
      obtain ⟨sp', hwf'⟩ := pushAll_wf s.toList { d.clear with alloc := s.alloc } [] []
        ⟨List.nodup_nil, by simp, rfl, rfl, rfl, trivial⟩
      exact ⟨sp', s.toList, by simpa [my_container.copyAssign] using hwf'⟩
  | moveAsgnDst d s b _ _ ihd ihs =>
    cases b with
    | true => exact ihd
    | false =>
      obtain ⟨sp, vs, hwf⟩ := ihs
      refine ⟨sp, vs, ?_⟩
      show SpineWF ⟨s.heap, s.head, s.tail, s.size, s.alloc⟩ sp vs
      exact ⟨hwf.nodup, hwf.bounded, hwf.sizeEq, hwf.headEq, hwf.tailEq, hwf.links⟩
  | moveAsgnSrc d s b _ _ ihd ihs =>
    cases b with
    | true => exact ihs
    | false => exact ⟨[], [], spineWF_empty_shape s.heap s.alloc⟩

theorem spineWF_toList {α : Type} (c : my_container α) (sp : List Nat) (vs : List α)
    (h : SpineWF c sp vs) : c.toList = vs := by
  unfold my_container.toList
  rw [h.headEq, h.sizeEq]
  exact linksV_iterFrom c.heap sp vs h.links

/-- The container invariant exactly as claim C7 words it: the count is
zero precisely when head and tail are both null; and when the count is
positive, the tail node's next link is null and following next links
from head reaches tail after exactly count - 1 steps. -/
def InvC7 {α : Type} (c : my_container α) : Prop :=
  (c.size = 0 ↔ (c.head = none ∧ c.tail = none)) ∧
  (0 < c.size →
    (∃ t : Nat, c.tail = some t ∧ ∃ nd : Node α, hlookup c.heap t = some nd ∧ nd.next = none) ∧
    stepN c.heap c.head (c.size - 1) = c.tail)

theorem spineWF_invC7 {α : Type} (c : my_container α) (sp : List Nat) (vs : List α)
    (h : SpineWF c sp vs) : InvC7 c := by
  cases sp with
  | nil =>
    refine ⟨⟨fun _ => ⟨by simpa using h.headEq, by simpa using h.tailEq⟩, fun _ => ?_⟩, ?_⟩
    · simpa using h.sizeEq
    · intro hpos
      rw [h.sizeEq] at hpos
      simp at hpos
  | cons a0 as =>
    have hsz : c.size = as.length + 1 := by simpa using h.sizeEq
    refine ⟨⟨fun h0 => ?_, fun hht => ?_⟩, fun _ => ?_⟩
    · rw [hsz] at h0
      exact absurd h0 (by simp)
    · rw [h.headEq] at hht
      simp at hht
    · obtain ⟨t, ht⟩ : ∃ t, (a0 :: as).getLast? = some t := by
        cases hlast : (a0 :: as).getLast? with
        | none => simp at hlast
        | some t => exact ⟨t, rfl⟩
      obtain ⟨v, hv⟩ := linksV_last c.heap (a0 :: as) vs t h.links ht
      refine ⟨⟨t, by rw [h.tailEq, ht], ⟨v, none⟩, hv, rfl⟩, ?_⟩
      rw [h.headEq, h.tailEq, hsz]
      simpa using linksV_stepN c.heap (a0 :: as) vs h.links (by simp)

theorem push_back_snd_true {α : Type} (c : my_container α) (v : α) :
    (c.push_back v true).2 = true := by
  cases hh : c.head with
  | none => simp [my_container.push_back, hh]
  | some x =>
    cases ht : c.tail with
    | none => simp [my_container.push_back, hh, ht]
    | some t => simp [my_container.push_back, hh, ht]

theorem clearLoop_none {α : Type} (f : Nat) (h : Heap α) (al : NodeAlloc) :
    clearLoop f h none al = (h, al) := by
  cases f <;> rfl

theorem clear_of_head_none {α : Type} (c : my_container α) (hh : c.head = none) :
    c.clear = ⟨c.heap, none, none, 0, c.alloc⟩ := by
  unfold my_container.clear
  rw [hh, clearLoop_none]

/-- C2: on every successful push_back the container's size increases
by exactly 1 and the new element becomes the last element of the
iterated sequence; when the node construction fails, the just-taken
storage is handed back (the allocator's allocated set is exactly what
it was) and the failure propagates (returned flag false) with head,
tail, count, and the node heap exactly as before the call; and
emplace_back behaves identically in both cases. -/
theorem C2_push_back_success_and_rollback {α : Type} (c : my_container α) (v : α)
    (h : Reachable c) :
    ((c.push_back v true).2 = true ∧
     (c.push_back v true).1.size = c.size + 1 ∧
     (c.push_back v true).1.toList = c.toList ++ [v] ∧
     c.emplace_back v true = c.push_back v true) ∧
    ((c.push_back v false).2 = false ∧
     (c.push_back v false).1.head = c.head ∧
     (c.push_back v false).1.tail = c.tail ∧
     (c.push_back v false).1.size = c.size ∧
     (c.push_back v false).1.heap = c.heap ∧
     (c.push_back v false).1.alloc.allocated = c.alloc.allocated ∧
     c.emplace_back v false = c.push_back v false) := by
  obtain ⟨sp, vs, hwf⟩ := reachable_wf c h
  have hwf2 := push_back_ok_wf c v sp vs hwf
  refine ⟨⟨push_back_snd_true c v, ?_, ?_, rfl⟩, ⟨rfl, ?_, ?_, ?_, ?_, ?_, rfl⟩⟩
  · rw [hwf2.sizeEq, hwf.sizeEq]
    simp
  · rw [spineWF_toList _ _ _ hwf2, spineWF_toList c sp vs hwf]
  · rw [push_back_fail_eq]
  · rw [push_back_fail_eq]
  · rw [push_back_fail_eq]
  · rw [push_back_fail_eq]
  · rw [push_back_fail_eq]

/-- Witness for C2 at the empty container and the value 5. -/
theorem C2_push_back_witness :
    (((mkEmpty Nat).push_back 5 true).2 = true ∧
     ((mkEmpty Nat).push_back 5 true).1.size = (mkEmpty Nat).size + 1 ∧
     ((mkEmpty Nat).push_back 5 true).1.toList = (mkEmpty Nat).toList ++ [5] ∧
     (mkEmpty Nat).emplace_back 5 true = (mkEmpty Nat).push_back 5 true) ∧
    (((mkEmpty Nat).push_back 5 false).2 = false ∧
     ((mkEmpty Nat).push_back 5 false).1.head = (mkEmpty Nat).head ∧
     ((mkEmpty Nat).push_back 5 false).1.tail = (mkEmpty Nat).tail ∧
     ((mkEmpty Nat).push_back 5 false).1.size = (mkEmpty Nat).size ∧
     ((mkEmpty Nat).push_back 5 false).1.heap = (mkEmpty Nat).heap ∧
     ((mkEmpty Nat).push_back 5 false).1.alloc.allocated = (mkEmpty Nat).alloc.allocated ∧
     (mkEmpty Nat).emplace_back 5 false = (mkEmpty Nat).push_back 5 false) :=
  C2_push_back_success_and_rollback (mkEmpty Nat) 5 (Reachable.nil ⟨0, []⟩)

/-- C3: for every finite sequence of push_back calls on an initially
empty container, size() afterwards equals the number of pushed values
and forward iteration from begin() to end() visits exactly the pushed
values in order. -/
theorem C3_push_back_sequence {α : Type} (vs : List α) :
    ((mkEmpty α).pushAll vs).size = vs.length ∧ ((mkEmpty α).pushAll vs).toList = vs := by
  obtain ⟨sp', hwf⟩ := pushAll_wf vs (mkEmpty α) [] [] (spineWF_empty_shape [] ⟨0, []⟩)
  rw [List.nil_append] at hwf
  refine ⟨?_, spineWF_toList _ sp' vs hwf⟩
  rw [hwf.sizeEq]
  exact linksV_length _ sp' vs hwf.links

/-- C7: in every container state reachable through the public
operations, count is 0 exactly when head and tail are both null, and
when count is positive the tail node's next link is null and following
next links from head reaches tail after exactly count - 1 steps. -/
theorem C7_container_invariant {α : Type} (c : my_container α) (h : Reachable c) :
    InvC7 c := by
  obtain ⟨sp, vs, hwf⟩ := reachable_wf c h
  exact spineWF_invC7 c sp vs hwf

/-- Witness for C7: the invariant at the one-element container. -/
theorem C7_container_invariant_witness : InvC7 ((mkEmpty Nat).push_back 0 true).1 :=
  C7_container_invariant ((mkEmpty Nat).push_back 0 true).1
    (Reachable.push (mkEmpty Nat) 0 true (Reachable.nil ⟨0, []⟩))

/-- C9: after clear() the container has null head and tail and size 0;
clear never throws (it is a total function of the state); and clear is
idempotent: clearing twice yields exactly the state of clearing
once. -/
theorem C9_clear_resets_and_idempotent {α : Type} (c : my_container α) :
    c.clear.head = none ∧ c.clear.tail = none ∧ c.clear.size = 0 ∧
    c.clear.clear = c.clear := by
  refine ⟨rfl, rfl, rfl, ?_⟩
  rw [clear_of_head_none c.clear rfl]
  rfl

/-- C10: move-assigning a container to itself (the guard this ==
addressOf other taken) is a no-op: head, tail, count, elements (the
node heap) and the allocator are all exactly as before, and the
operation is a total function (never throws). -/
theorem C10_move_self_assignment {α : Type} (c : my_container α) :
    c.moveAssign c true = (c, c) := rfl
